import Mathlib

/-!
Verification of the chunked transcription pipeline (podscript media tools).

Shallow embedding of:
- `sanitize_filename` and `split_audio_file` (rust-transcriber/src/utils.rs)
- `TranscriptionService::transcribe_file` / `transcribe_single_file` /
  `transcribe_large_file` (media-transcriber/src/transcription.rs)
- the episode sort/limit/loop of `PodcastProcessor::process`
  (media-transcriber/src/podcast.rs)

External effects (filesystem, ffmpeg, the transcription backend) are modelled
by an explicit environment and an event trace.
-/

/-! ## Characters and whitespace

`isWhitespaceU` is the Unicode White_Space property, which is what both
Rust's `char::is_whitespace` (used by `str::trim`) and the `regex` crate's
`\s` class match. -/

def isWhitespaceU (c : Char) : Bool :=
  c.toNat = 0x20 || (0x9 ≤ c.toNat && c.toNat ≤ 0xD) ||
  c.toNat = 0x85 || c.toNat = 0xA0 || c.toNat = 0x1680 ||
  (0x2000 ≤ c.toNat && c.toNat ≤ 0x200A) ||
  c.toNat = 0x2028 || c.toNat = 0x2029 ||
  c.toNat = 0x202F || c.toNat = 0x205F || c.toNat = 0x3000

/-- Rust `str::trim_end` on a character list: drop trailing whitespace. -/
def trimEndL (l : List Char) : List Char :=
  (l.reverse.dropWhile isWhitespaceU).reverse

/-- Rust `str::trim` on a character list: drop leading and trailing
whitespace. -/
def trimL (l : List Char) : List Char :=
  (trimEndL l).dropWhile isWhitespaceU

/-- Rust `str::trim`. -/
def rustTrim (s : String) : String :=
  ⟨trimL s.data⟩

/-! ## Identifier: `sanitize_filename` (utils.rs lines 15-29)

The Rust function is
1. `input.replace("<![CDATA[", "").replace("]]>", "")`
2. `Regex::new(r"[^a-zA-Z0-9\s]").replace_all(-, "")`
3. `.replace(' ', "_")`
4. `Regex::new(r"_+$").replace_all(-, "")`
-/

/-- `str::replace("<![CDATA[", "")`: delete every (non-overlapping,
left-to-right) occurrence of the 9-character opening CDATA marker. -/
def removeCDOpen : List Char → List Char
  | '<' :: '!' :: '[' :: 'C' :: 'D' :: 'A' :: 'T' :: 'A' :: '[' :: rest =>
      removeCDOpen rest
  | c :: rest => c :: removeCDOpen rest
  | [] => []

/-- `str::replace("]]>", "")`: delete every occurrence of the closing CDATA
marker. -/
def removeCDClose : List Char → List Char
  | ']' :: ']' :: '>' :: rest => removeCDClose rest
  | c :: rest => c :: removeCDClose rest
  | [] => []

/-- Both CDATA replacements, in the order the Rust code applies them. -/
def cdataStrip (l : List Char) : List Char :=
  removeCDClose (removeCDOpen l)

/-- The complement of the regex class `[^a-zA-Z0-9\s]`: ASCII alphanumerics
(`Char.isAlphanum` is exactly `[a-zA-Z0-9]`) and Unicode whitespace. -/
def keepChar (c : Char) : Bool :=
  c.isAlphanum || isWhitespaceU c

/-- `str::replace(' ', "_")` applied characterwise: only the space character
U+0020 is replaced; other whitespace is untouched. -/
def spaceToUnderscore (c : Char) : Char :=
  if c = ' ' then '_' else c

/-- `Regex::new(r"_+$").replace_all(-, "")`: drop the trailing run of
underscores (the `$` anchor matches only at the end of the haystack). -/
def stripTrailingUnderscores (l : List Char) : List Char :=
  (l.reverse.dropWhile (fun c => c = '_')).reverse

/-- `sanitize_filename` (utils.rs lines 15-29). -/
def sanitize_filename (s : String) : String :=
  ⟨stripTrailingUnderscores
    (((cdataStrip s.data).filter keepChar).map spaceToUnderscore)⟩

/-! ## Segmenter: `split_audio_file` (utils.rs lines 83-143)

The function probes the duration, computes
`chunk_count = (duration / chunk_duration).ceil() as usize` and, for each
`i` in `0..chunk_count`, runs ffmpeg with `-ss (i * chunk_duration)` and —
for every chunk except the last — an explicit `-t chunk_duration`.  We
embed the pure extraction plan; real arithmetic is modelled by `ℚ`. -/

/-- The ffmpeg invocation planned for one chunk: its 0-based loop index,
its `-ss` start offset in seconds, and its `-t` duration argument
(`none` when the flag is omitted, i.e. for the last chunk). -/
structure ChunkCmd where
  index : Nat
  start : ℚ
  explicitDur : Option Nat
deriving DecidableEq, Repr

/-- `chunk_count = (duration / chunk_duration as f64).ceil() as usize`. -/
def splitChunkCount (duration : ℚ) (chunkDuration : Nat) : Nat :=
  ⌈duration / (chunkDuration : ℚ)⌉.toNat

/-- The extraction plan of `split_audio_file` for a probed `duration` and a
target `chunkDuration` (the caller passes 1000 seconds). -/
def split_audio_file (duration : ℚ) (chunkDuration : Nat) : List ChunkCmd :=
  let chunkCount := splitChunkCount duration chunkDuration
  (List.range chunkCount).map fun i =>
    { index := i
      start := (i : ℚ) * (chunkDuration : ℚ)
      explicitDur := if i < chunkCount - 1 then some chunkDuration else none }

/-! ## Chunked Transcription Orchestrator (transcription.rs)

`transcribe_file` checks that the audio file exists, reads its size, and
dispatches on the fixed `MAX_SIZE = 25 * 1024 * 1024` threshold:
`transcribe_single_file` (one backend call, the backend writes the given
output path) for small files, `transcribe_large_file` (split once, backend
per chunk into a private temp transcript, combine, single `fs::write` of the
output path) for large files.

The environment abstracts the filesystem and the backend; executions return
the `Result` value together with the trace of external calls. -/

/-- What the backend is invoked on: the whole asset or chunk `i`
(0-based position in the chunk list). -/
inductive Target where
  | whole : Target
  | chunk : Nat → Target
deriving DecidableEq, Repr

/-- File paths relevant to the orchestrator: the caller-visible output
transcript path, or the private per-chunk temp transcript
`transcripts/transcript_{i+1}.txt`. -/
inductive PathId where
  | output : PathId
  | tmpTranscript : Nat → PathId
deriving DecidableEq, Repr

/-- Observable external effects of the orchestrator. -/
inductive Event where
  /-- One invocation of `utils::split_audio_file`. -/
  | segmenterCall : Event
  /-- One invocation of the `podscript` backend on `src`, told to write its
  transcript to `dst`. -/
  | adapterCall : Target → PathId → Event
  /-- One `fs::write` of `content` to path `p`. -/
  | fsWrite : PathId → String → Event
deriving DecidableEq, Repr

/-- Environment of one `transcribe_file` run. -/
structure TEnv where
  /-- `audio_file.exists()` -/
  fileExists : Bool
  /-- `fs::metadata(audio_file)?.len()` -/
  fileSize : Nat
  /-- Result of `utils::split_audio_file`: `some n` means `n` chunk files
  were produced, `none` means it returned an error. -/
  segResult : Option Nat
  /-- Error message of a failed `split_audio_file`. -/
  segError : String
  /-- Whether the backend command exits successfully on a given target. -/
  adapterOk : Target → Bool
  /-- Transcript text the backend writes for a target (read back with
  `fs::read_to_string`). -/
  adapterText : Target → String
  /-- The backend's stderr for a target, used in the failure message. -/
  adapterStderr : Target → String

/-- OpenAI's upload limit: `const MAX_SIZE: u64 = 25 * 1024 * 1024`. -/
def MAX_SIZE : Nat := 25 * 1024 * 1024

/-- `transcribe_single_file` (transcription.rs lines 68-110): one backend
invocation; on nonzero exit, `Err(anyhow!("Transcription failed: {stderr}"))`. -/
def transcribeSingle (env : TEnv) (src : Target) (dst : PathId) :
    Except String Unit × List Event :=
  if env.adapterOk src then
    (Except.ok (), [Event.adapterCall src dst])
  else
    (Except.error ("Transcription failed: " ++ env.adapterStderr src),
     [Event.adapterCall src dst])

/-- The chunk loop of `transcribe_large_file` (lines 130-140): for each chunk
in list order, transcribe into its temp transcript, read it back and append
it plus `"\n\n"` to the accumulator; the first failure propagates with `?`. -/
def chunkLoop (env : TEnv) (acc : String) :
    List Nat → Except String String × List Event
  | [] => (Except.ok acc, [])
  | i :: rest =>
    match transcribeSingle env (Target.chunk i) (PathId.tmpTranscript i) with
    | (Except.ok _, evs) =>
      let acc2 := acc ++ env.adapterText (Target.chunk i) ++ "\n\n"
      let res := chunkLoop env acc2 rest
      (res.1, evs ++ res.2)
    | (Except.error e, evs) => (Except.error e, evs)

/-- `transcribe_large_file` (transcription.rs lines 113-150): one
`split_audio_file` call; on its success, the chunk loop over positions
`0..n`; only after every chunk succeeded, a single
`fs::write(output_file, all_transcripts.trim())`. -/
def transcribeLarge (env : TEnv) : Except String Unit × List Event :=
  match env.segResult with
  | none => (Except.error env.segError, [Event.segmenterCall])
  | some n =>
    match chunkLoop env "" (List.range n) with
    | (Except.ok allTranscripts, evs) =>
      (Except.ok (),
       Event.segmenterCall ::
         (evs ++ [Event.fsWrite PathId.output (rustTrim allTranscripts)]))
    | (Except.error e, evs) => (Except.error e, Event.segmenterCall :: evs)

/-- `transcribe_file` (transcription.rs lines 41-65). -/
def transcribe_file (env : TEnv) : Except String Unit × List Event :=
  if env.fileExists = false then
    (Except.error "Audio file does not exist", [])
  else if env.fileSize ≤ MAX_SIZE then
    transcribeSingle env Target.whole PathId.output
  else
    transcribeLarge env

/-- The segmenter invocations of a trace. -/
def segCalls (tr : List Event) : List Event :=
  tr.filter fun e => e = Event.segmenterCall

/-- The backend invocations of a trace, in order, by target. -/
def adapterCalls (tr : List Event) : List Target :=
  tr.filterMap fun e =>
    match e with
    | Event.adapterCall t _ => some t
    | _ => none

/-- Does an event create or modify the caller-visible output path?  True for
a direct `fs::write` to it and for a backend invocation told to write it. -/
def touchesOutput : Event → Bool
  | Event.fsWrite PathId.output _ => true
  | Event.adapterCall _ PathId.output => true
  | _ => false

/-- The contents of the `fs::write` events to the output path, in order. -/
def outputWrites (tr : List Event) : List String :=
  tr.filterMap fun e =>
    match e with
    | Event.fsWrite PathId.output s => some s
    | _ => none

/-! ## Batch Pipeline: `PodcastProcessor::process` (podcast.rs lines 32-94)

Episodes are sorted with
`episodes.sort_by(|a, b| b.pub_date.unwrap_or_default().cmp(&a.pub_date.unwrap_or_default()))`
— a stable sort, descending on the publication timestamp, where a missing
timestamp is `DateTime::default()`, i.e. the Unix epoch.  Timestamps are
modelled as `Int` seconds relative to the epoch, so the default is `0`.
Then `if episodes.len() > limit { episodes.truncate(limit) }`. -/

/-- A podcast episode as the pipeline sees it: its title and optional
publication timestamp (seconds relative to the Unix epoch; `pub_date` is
`Option<DateTime<FixedOffset>>`). -/
structure Episode where
  title : String
  pubDate : Option Int
deriving DecidableEq, Repr

/-- The key the comparator uses: `pub_date.unwrap_or_default()`, the Unix
epoch (`0`) when the episode has no parseable publication date. -/
def sortKey (e : Episode) : Int :=
  e.pubDate.getD 0

/-- The comparator order of `sort_by`: `a` may precede `b` when
`b.key ≤ a.key` (descending by key). -/
def newestFirst (a b : Episode) : Prop :=
  sortKey b ≤ sortKey a

instance : DecidableRel newestFirst := fun a b =>
  inferInstanceAs (Decidable (sortKey b ≤ sortKey a))

/-- `episodes.sort_by(...)` followed by the optional
`episodes.truncate(limit)` guarded by `episodes.len() > limit`
(podcast.rs lines 47-58).  Rust's `sort_by` is stable, as is insertion
sort, so they produce the same list. -/
def processOrder (limit : Option Nat) (episodes : List Episode) :
    List Episode :=
  let sorted := List.insertionSort newestFirst episodes
  match limit with
  | some l => if sorted.length > l then sorted.take l else sorted
  | none => sorted

/-- Outcome the loop body records for one episode (podcast.rs lines 63-91). -/
inductive ItemOutcome where
  | downloadFailed : ItemOutcome
  | transcribeFailed : ItemOutcome
  | success : ItemOutcome
deriving DecidableEq, Repr

/-- Environment of the per-episode loop, indexed by episode position:
whether the `fs::create_dir_all`/`tempdir` calls for that episode succeed
(these are propagated with `?`), whether its audio download succeeds, and
whether its transcription succeeds. -/
structure BatchEnv where
  createDirOk : Nat → Bool
  downloadOk : Nat → Bool
  transcribeOk : Nat → Bool

/-- The outcome of episode `i` as decided by the loop body: a download
failure is logged and skips transcription; a transcription failure is
logged; both `continue`. -/
def outcomeAt (benv : BatchEnv) (i : Nat) : ItemOutcome :=
  if benv.downloadOk i = false then ItemOutcome.downloadFailed
  else if benv.transcribeOk i = false then ItemOutcome.transcribeFailed
  else ItemOutcome.success

/-- The episode loop (podcast.rs lines 63-91): per episode, create its
directory and temp dir (`?`, aborts the batch on failure), then download
(`continue` on failure) and transcribe (`continue` on failure); the recorded
per-item outcomes are returned in order. -/
def episodeLoop (benv : BatchEnv) :
    Nat → List Episode → Except String (List (Nat × ItemOutcome))
  | _, [] => Except.ok []
  | i, _ :: rest =>
    if benv.createDirOk i = false then
      Except.error "directory creation failed"
    else
      match episodeLoop benv (i + 1) rest with
      | Except.ok l => Except.ok ((i, outcomeAt benv i) :: l)
      | Except.error e => Except.error e

/-! ## Reassembly (for the order-invariance property)

The orchestrator buffers `(sequenceIndex, text)` pairs and reassembles by
ascending `sequenceIndex`: sorting the received pairs by index and folding
exactly as the chunk loop does (`text ++ "\n\n"` each, then `trim`). -/

/-- The accumulator the chunk loop builds from the chunk texts in list
order: `t0 ++ "\n\n" ++ t1 ++ "\n\n" ++ ...` with a trailing separator. -/
def joinTrailing (texts : List String) : String :=
  texts.foldr (fun t acc => t ++ "\n\n" ++ acc) ""

/-- Reassembly of a buffer of `(sequenceIndex, text)` pairs: order by
ascending index (stably), then combine and trim as
`transcribe_large_file` does. -/
def reassemble (buf : List (Nat × String)) : String :=
  rustTrim (joinTrailing
    ((List.insertionSort (fun a b : Nat × String => a.1 ≤ b.1) buf).map
      Prod.snd))

/-! ## Helper lemmas -/

theorem data_append (a b : String) : (a ++ b).data = a.data ++ b.data := by
  cases a; cases b; rfl

theorem string_append_empty (s : String) : s ++ "" = s := by
  apply String.ext
  rw [data_append]
  exact List.append_nil s.data

theorem trimEndL_append_nn (l : List Char) :
    trimEndL (l ++ ['\n', '\n']) = trimEndL l := by
  unfold trimEndL
  rw [List.reverse_append]
  have hnl : isWhitespaceU '\n' = true := by decide
  simp [List.dropWhile, hnl]

theorem rustTrim_append_nn (s : String) : rustTrim (s ++ "\n\n") = rustTrim s := by
  unfold rustTrim trimL
  rw [data_append]
  have : ("\n\n" : String).data = ['\n', '\n'] := rfl
  rw [this, trimEndL_append_nn]

/-- The combined accumulator is the blank-line-separated concatenation plus
one trailing separator. -/
def sepJoin : List String → String
  | [] => ""
  | [t] => t
  | t :: rest => t ++ "\n\n" ++ sepJoin rest

theorem joinTrailing_eq_sepJoin_append (ts : List String) (h : ts ≠ []) :
    joinTrailing ts = sepJoin ts ++ "\n\n" := by
  induction ts with
  | nil => exact absurd rfl h
  | cons t rest ih =>
    cases rest with
    | nil =>
      simp only [joinTrailing, List.foldr, sepJoin]
      rw [string_append_empty]
    | cons u rest2 =>
      have hrw : joinTrailing (u :: rest2) = sepJoin (u :: rest2) ++ "\n\n" :=
        ih (by simp)
      simp only [joinTrailing, List.foldr, sepJoin] at hrw ⊢
      rw [hrw, ← String.append_assoc]

/-- Trimming erases the difference between the loop's trailing-separator
concatenation and the spec's separated join. -/
theorem rustTrim_joinTrailing (ts : List String) :
    rustTrim (joinTrailing ts) = rustTrim (sepJoin ts) := by
  cases ts with
  | nil => rfl
  | cons t rest =>
    rw [joinTrailing_eq_sepJoin_append (t :: rest) (by simp)]
    exact rustTrim_append_nn _

/-- Every event the chunk loop emits is a backend call on one of its chunks,
writing that chunk's private temp transcript. -/
theorem chunkLoop_events (env : TEnv) (L : List Nat) (acc : String) :
    ∀ ev ∈ (chunkLoop env acc L).2, ∃ i ∈ L,
      ev = Event.adapterCall (Target.chunk i) (PathId.tmpTranscript i) := by
  induction L generalizing acc with
  | nil => simp [chunkLoop]
  | cons i rest ih =>
    intro ev hev
    by_cases hi : env.adapterOk (Target.chunk i) = true
    · simp only [chunkLoop, transcribeSingle, hi, if_pos] at hev
      simp only [List.cons_append, List.nil_append, List.mem_cons] at hev
      rcases hev with rfl | hev
      · exact ⟨i, by simp⟩
      · obtain ⟨j, hj, rfl⟩ := ih _ ev hev
        exact ⟨j, by simp [hj]⟩
    · simp only [chunkLoop, transcribeSingle, hi, if_neg, Bool.not_eq_true] at hev
      simp only [List.mem_singleton] at hev
      exact ⟨i, by simp, hev⟩

/-- When every chunk in the list succeeds, the loop returns the accumulator
extended by each chunk's text plus a blank-line separator, and its trace is
one backend call per chunk, in list order. -/
theorem chunkLoop_all_ok (env : TEnv) (L : List Nat)
    (h : ∀ i ∈ L, env.adapterOk (Target.chunk i) = true) :
    ∀ acc, chunkLoop env acc L =
      (Except.ok (acc ++ joinTrailing (L.map fun i => env.adapterText (Target.chunk i))),
       L.map fun i => Event.adapterCall (Target.chunk i) (PathId.tmpTranscript i)) := by
  induction L with
  | nil =>
    intro acc
    simp [chunkLoop, joinTrailing, string_append_empty]
  | cons i rest ih =>
    intro acc
    have hi : env.adapterOk (Target.chunk i) = true := h i (by simp)
    have hrest : ∀ j ∈ rest, env.adapterOk (Target.chunk j) = true :=
      fun j hj => h j (by simp [hj])
    simp only [chunkLoop, transcribeSingle, hi, if_pos, ih hrest]
    simp only [List.map_cons, List.cons_append, List.nil_append, Prod.mk.injEq,
      Except.ok.injEq, joinTrailing, List.foldr_cons]
    exact ⟨by simp [String.append_assoc], trivial⟩

/-- The loop fails with the raw backend error of the first failing chunk. -/
theorem chunkLoop_first_fail (env : TEnv) (L : List Nat) (j : Nat)
    (h : L.find? (fun i => !env.adapterOk (Target.chunk i)) = some j) :
    ∀ acc, (chunkLoop env acc L).1 =
      Except.error ("Transcription failed: " ++ env.adapterStderr (Target.chunk j)) := by
  induction L with
  | nil => simp [List.find?] at h
  | cons i rest ih =>
    intro acc
    by_cases hi : env.adapterOk (Target.chunk i) = true
    · rw [List.find?_cons] at h
      simp only [hi, Bool.not_true] at h
      simp only [chunkLoop, transcribeSingle, hi, if_pos]
      exact ih h _
    · rw [List.find?_cons] at h
      simp only [hi, Bool.not_eq_true] at h
      simp only [Bool.not_false] at h
      have hij : i = j := by
        simpa using h
      subst hij
      simp only [chunkLoop, transcribeSingle, hi, if_neg, Bool.not_eq_true]

/-- If some chunk in the list fails, the loop returns an error. -/
theorem chunkLoop_fail_of_exists (env : TEnv) (L : List Nat)
    (h : ∃ i ∈ L, env.adapterOk (Target.chunk i) = false) :
    ∀ acc, ∃ e, (chunkLoop env acc L).1 = Except.error e := by
  induction L with
  | nil => simp at h
  | cons i rest ih =>
    intro acc
    by_cases hi : env.adapterOk (Target.chunk i) = true
    · have hrest : ∃ j ∈ rest, env.adapterOk (Target.chunk j) = false := by
        obtain ⟨j, hj, hfail⟩ := h
        rcases List.mem_cons.mp hj with rfl | hj2
        · exact absurd hi (by simp [hfail])
        · exact ⟨j, hj2, hfail⟩
      simp only [chunkLoop, transcribeSingle, hi, if_pos]
      exact ih hrest _
    · refine ⟨"Transcription failed: " ++ env.adapterStderr (Target.chunk i), ?_⟩
      simp only [chunkLoop, transcribeSingle, hi, if_neg, Bool.not_eq_true]

/-- A list of chunk backend-call events contains no segmenter call. -/
theorem segCalls_chunkEvents (L : List Nat) :
    segCalls (L.map fun i =>
      Event.adapterCall (Target.chunk i) (PathId.tmpTranscript i)) = [] := by
  induction L with
  | nil => rfl
  | cons i rest ih => simp [segCalls, List.filter] at ih ⊢

/-- The backend targets of a list of chunk backend-call events. -/
theorem adapterCalls_chunkEvents (L : List Nat) :
    adapterCalls (L.map fun i =>
      Event.adapterCall (Target.chunk i) (PathId.tmpTranscript i)) =
      L.map Target.chunk := by
  induction L with
  | nil => rfl
  | cons i rest ih =>
    simp only [adapterCalls, List.map_cons, List.filterMap_cons] at ih ⊢
    rw [ih]

/-! ## C1: strategy selection by file size -/

/-- C1: for every audio asset, `transcribe_file` selects its strategy by
file size: if the size is at most the fixed 25 MiB threshold it calls the
backend adapter exactly once on the whole asset and never invokes the
segmenter; if the size exceeds the threshold it invokes the segmenter
exactly once and then the adapter once per produced chunk, in ascending
chunk-index order. -/
theorem transcribe_file_strategy (env : TEnv) (hex : env.fileExists = true) :
    (env.fileSize ≤ MAX_SIZE →
      segCalls (transcribe_file env).2 = [] ∧
      adapterCalls (transcribe_file env).2 = [Target.whole]) ∧
    (MAX_SIZE < env.fileSize → ∀ n, env.segResult = some n →
      (∀ i, i < n → env.adapterOk (Target.chunk i) = true) →
      segCalls (transcribe_file env).2 = [Event.segmenterCall] ∧
      adapterCalls (transcribe_file env).2 = (List.range n).map Target.chunk) := by
  constructor
  · intro hsz
    have htr : transcribe_file env = transcribeSingle env Target.whole PathId.output := by
      simp [transcribe_file, hex, hsz]
    rw [htr]
    by_cases hok : env.adapterOk Target.whole = true <;>
      simp [transcribeSingle, hok, segCalls, adapterCalls, List.filter, List.filterMap]
  · intro hsz n hseg hok
    have hne : ¬ env.fileSize ≤ MAX_SIZE := not_le.mpr hsz
    have hall : ∀ i ∈ List.range n, env.adapterOk (Target.chunk i) = true :=
      fun i hi => hok i (List.mem_range.mp hi)
    have htr : (transcribe_file env).2 =
        Event.segmenterCall ::
          ((List.range n).map (fun i =>
            Event.adapterCall (Target.chunk i) (PathId.tmpTranscript i)) ++
           [Event.fsWrite PathId.output
             (rustTrim (joinTrailing ((List.range n).map fun i =>
               env.adapterText (Target.chunk i))))]) := by
      simp [transcribe_file, hex, hne, transcribeLarge, hseg,
        chunkLoop_all_ok env (List.range n) hall ""]
    rw [htr]
    constructor
    · have h1 := segCalls_chunkEvents (List.range n)
      simp only [segCalls] at h1 ⊢
      simp [List.filter_cons, List.filter_append, h1]
    · have h1 := adapterCalls_chunkEvents (List.range n)
      simp only [adapterCalls] at h1 ⊢
      simp [List.filterMap_cons, List.filterMap_append, h1]

/-- A small-file environment exercising the direct strategy. -/
def envSmall : TEnv :=
  { fileExists := true, fileSize := 1000, segResult := some 0, segError := "",
    adapterOk := fun _ => true, adapterText := fun _ => "hello",
    adapterStderr := fun _ => "" }

/-- Witness for C1 at a concrete 1000-byte asset. -/
theorem transcribe_file_strategy_witness :
    segCalls (transcribe_file envSmall).2 = [] ∧
    adapterCalls (transcribe_file envSmall).2 = [Target.whole] :=
  (transcribe_file_strategy envSmall rfl).1 (by decide)

/-- Unfolding of `transcribeLarge` when segmentation produced `n` chunks. -/
theorem transcribeLarge_seg_some (env : TEnv) (n : Nat) (hseg : env.segResult = some n) :
    transcribeLarge env =
      match chunkLoop env "" (List.range n) with
      | (Except.ok allTranscripts, evs) =>
        (Except.ok (), Event.segmenterCall ::
          (evs ++ [Event.fsWrite PathId.output (rustTrim allTranscripts)]))
      | (Except.error e, evs) => (Except.error e, Event.segmenterCall :: evs) := by
  unfold transcribeLarge
  rw [hseg]

/-! ## C2: no partial transcript on chunk failure -/

/-- C2: in chunked mode, when any chunk's transcription fails,
`transcribe_file` returns an error and its trace contains no event that
creates or modifies the output path — the combined transcript is written
only after every chunk succeeded, so on failure the output path is left
untouched. -/
theorem transcribe_file_no_partial_output (env : TEnv) (hex : env.fileExists = true)
    (hsz : MAX_SIZE < env.fileSize) (n : Nat) (hseg : env.segResult = some n)
    (j : Nat) (hj : j < n) (hfail : env.adapterOk (Target.chunk j) = false) :
    (∃ e, (transcribe_file env).1 = Except.error e) ∧
    ∀ ev ∈ (transcribe_file env).2, touchesOutput ev = false := by
  have hne : ¬ env.fileSize ≤ MAX_SIZE := not_le.mpr hsz
  have hexists : ∃ i ∈ List.range n, env.adapterOk (Target.chunk i) = false :=
    ⟨j, List.mem_range.mpr hj, hfail⟩
  obtain ⟨e, he⟩ := chunkLoop_fail_of_exists env (List.range n) hexists ""
  have htf : transcribe_file env = transcribeLarge env := by
    simp [transcribe_file, hex, hne]
  rcases hc : chunkLoop env "" (List.range n) with ⟨r, evs⟩
  rw [hc] at he
  change r = Except.error e at he
  subst he
  have hT : transcribeLarge env = (Except.error e, Event.segmenterCall :: evs) := by
    rw [transcribeLarge_seg_some env n hseg, hc]
  constructor
  · exact ⟨e, by rw [htf, hT]⟩
  · intro ev hev
    rw [htf, hT] at hev
    simp only [List.mem_cons] at hev
    rcases hev with rfl | hev
    · rfl
    · obtain ⟨i, _, rfl⟩ :=
        chunkLoop_events env (List.range n) "" ev (by rw [hc]; exact hev)
      rfl

/-- A large-file environment in which chunk 2 of 5 fails. -/
def envFail2 : TEnv :=
  { fileExists := true, fileSize := 26 * 1024 * 1024, segResult := some 5,
    segError := "",
    adapterOk := fun t =>
      match t with
      | Target.chunk 2 => false
      | _ => true,
    adapterText := fun _ => "text", adapterStderr := fun _ => "backend stderr" }

/-- Witness for C2: chunk 2 of 5 fails, the run errors and never touches the
output path. -/
theorem transcribe_file_no_partial_output_witness :
    (∃ e, (transcribe_file envFail2).1 = Except.error e) ∧
    ∀ ev ∈ (transcribe_file envFail2).2, touchesOutput ev = false :=
  transcribe_file_no_partial_output envFail2 rfl (by decide) 5 rfl 2 (by decide) rfl

/-! ## C10: nonexistent audio file -/

/-- C10: when the audio file does not exist, `transcribe_file` returns an
error immediately: its trace is empty (no segmenter call, no backend call,
no write), and the result does not depend on the file size, i.e. the
failure happens before the size check. -/
theorem transcribe_file_missing (env : TEnv) (hex : env.fileExists = false) :
    (transcribe_file env).1 = Except.error "Audio file does not exist" ∧
    (transcribe_file env).2 = [] ∧
    (∀ sz, transcribe_file { env with fileSize := sz } = transcribe_file env) := by
  refine ⟨?_, ?_, ?_⟩ <;> simp [transcribe_file, hex]

/-- Witness for C10 at a concrete environment whose file is missing. -/
theorem transcribe_file_missing_witness :
    (transcribe_file { envSmall with fileExists := false }).1 =
      Except.error "Audio file does not exist" ∧
    (transcribe_file { envSmall with fileExists := false }).2 = [] ∧
    (∀ sz, transcribe_file { { envSmall with fileExists := false } with fileSize := sz } =
      transcribe_file { envSmall with fileExists := false }) :=
  transcribe_file_missing { envSmall with fileExists := false } rfl

/-! ## C3: the propagated chunk error -/

/-- A large-file environment in which chunk 3 of 5 fails, with the same
backend stderr as `envFail2`. -/
def envFail3 : TEnv :=
  { fileExists := true, fileSize := 26 * 1024 * 1024, segResult := some 5,
    segError := "",
    adapterOk := fun t =>
      match t with
      | Target.chunk 3 => false
      | _ => true,
    adapterText := fun _ => "text", adapterStderr := fun _ => "backend stderr" }

/-- C3 counterexample: with 5 chunks, a failure of chunk 2 and a failure of
chunk 3 (same backend stderr) produce the *same* error value
`"Transcription failed: backend stderr"` — the failing chunk's index is not
attached to the propagated error, contradicting the claim that the error
reports the chunk index. -/
theorem chunk_error_lacks_index :
    (transcribe_file envFail2).1 =
      Except.error "Transcription failed: backend stderr" ∧
    (transcribe_file envFail3).1 =
      Except.error "Transcription failed: backend stderr" ∧
    (transcribe_file envFail2).1 = (transcribe_file envFail3).1 :=
  ⟨rfl, rfl, rfl⟩

/-- C3 amended: in chunked mode, when the transcription of a chunk fails
(the first failing chunk being `j`), the error propagated to the caller is
the backend's own failure message, unchanged — no chunk index is attached. -/
theorem chunk_error_is_raw_backend_error (env : TEnv) (hex : env.fileExists = true)
    (hsz : MAX_SIZE < env.fileSize) (n : Nat) (hseg : env.segResult = some n)
    (j : Nat)
    (hfind : (List.range n).find? (fun i => !env.adapterOk (Target.chunk i)) = some j) :
    (transcribe_file env).1 =
      Except.error ("Transcription failed: " ++ env.adapterStderr (Target.chunk j)) := by
  have hne : ¬ env.fileSize ≤ MAX_SIZE := not_le.mpr hsz
  have htf : transcribe_file env = transcribeLarge env := by
    simp [transcribe_file, hex, hne]
  have he := chunkLoop_first_fail env (List.range n) j hfind ""
  rcases hc : chunkLoop env "" (List.range n) with ⟨r, evs⟩
  rw [hc] at he
  change r = Except.error _ at he
  subst he
  rw [htf, transcribeLarge_seg_some env n hseg, hc]

/-- Witness for the amended C3: in `envFail2` the first failing chunk is 2
and the propagated error is the raw backend message. -/
theorem chunk_error_is_raw_backend_error_witness :
    (transcribe_file envFail2).1 =
      Except.error ("Transcription failed: " ++ envFail2.adapterStderr (Target.chunk 2)) :=
  chunk_error_is_raw_backend_error envFail2 rfl (by decide) 5 rfl 2 (by decide)

/-! ## C5: deterministic reassembly -/

/-- Chunk backend-call events contain no write to the output path. -/
theorem outputWrites_chunkEvents (L : List Nat) :
    outputWrites (L.map fun i =>
      Event.adapterCall (Target.chunk i) (PathId.tmpTranscript i)) = [] := by
  induction L with
  | nil => rfl
  | cons i rest ih =>
    simp only [outputWrites, List.map_cons, List.filterMap_cons] at ih ⊢
    exact ih

/-- The full trace of a successful chunked run. -/
theorem transcribe_file_all_ok_trace (env : TEnv) (hex : env.fileExists = true)
    (hsz : MAX_SIZE < env.fileSize) (n : Nat) (hseg : env.segResult = some n)
    (hok : ∀ i, i < n → env.adapterOk (Target.chunk i) = true) :
    (transcribe_file env).2 =
      Event.segmenterCall ::
        ((List.range n).map (fun i =>
          Event.adapterCall (Target.chunk i) (PathId.tmpTranscript i)) ++
         [Event.fsWrite PathId.output
           (rustTrim (joinTrailing ((List.range n).map fun i =>
             env.adapterText (Target.chunk i))))]) := by
  have hne : ¬ env.fileSize ≤ MAX_SIZE := not_le.mpr hsz
  have hall : ∀ i ∈ List.range n, env.adapterOk (Target.chunk i) = true :=
    fun i hi => hok i (List.mem_range.mp hi)
  simp [transcribe_file, hex, hne, transcribeLarge, hseg,
    chunkLoop_all_ok env (List.range n) hall ""]

/-- Sorting an already index-ordered buffer is the identity. -/
theorem insertionSort_indexed_buffer (n : Nat) (t : Nat → String) :
    List.insertionSort (fun a b : Nat × String => a.1 ≤ b.1)
      ((List.range n).map fun i => (i, t i)) =
      (List.range n).map fun i => (i, t i) := by
  apply List.Sorted.insertionSort_eq
  have h : List.Pairwise (fun a b : Nat => a < b) (List.range n) :=
    List.pairwise_lt_range n
  exact List.pairwise_map.mpr (h.imp fun hab => Nat.le_of_lt hab)

/-- Reassembly depends only on the set of indexed chunk transcripts, not on
the order in which they arrive, as long as sequence indices are distinct. -/
theorem reassemble_perm_invariant (b1 b2 : List (Nat × String)) (hp : b1.Perm b2)
    (hn : (b1.map Prod.fst).Nodup) : reassemble b1 = reassemble b2 := by
  haveI : IsTotal (Nat × String) (fun a b => a.1 ≤ b.1) :=
    ⟨fun a b => Nat.le_total a.1 b.1⟩
  haveI : IsTrans (Nat × String) (fun a b => a.1 ≤ b.1) :=
    ⟨fun a b c hab hbc => Nat.le_trans hab hbc⟩
  haveI : IsAntisymm (Nat × String) (fun a b => a.1 < b.1) :=
    ⟨fun a b h1 h2 => absurd h2 (Nat.lt_asymm h1)⟩
  have hs1 := List.sorted_insertionSort (fun a b : Nat × String => a.1 ≤ b.1) b1
  have hs2 := List.sorted_insertionSort (fun a b : Nat × String => a.1 ≤ b.1) b2
  have hp1 := List.perm_insertionSort (fun a b : Nat × String => a.1 ≤ b.1) b1
  have hp2 := List.perm_insertionSort (fun a b : Nat × String => a.1 ≤ b.1) b2
  have hn2 : (b2.map Prod.fst).Nodup := ((hp.map Prod.fst).nodup_iff).mp hn
  have hn1s := ((hp1.map Prod.fst).nodup_iff).mpr hn
  have hn2s := ((hp2.map Prod.fst).nodup_iff).mpr hn2
  have hstrict : ∀ l : List (Nat × String),
      List.Sorted (fun a b : Nat × String => a.1 ≤ b.1) l →
      (l.map Prod.fst).Nodup →
      List.Sorted (fun a b : Nat × String => a.1 < b.1) l := by
    intro l hs hnd
    have hne : List.Pairwise (fun a b : Nat × String => a.1 ≠ b.1) l :=
      List.pairwise_map.mp hnd
    exact (hs.and hne).imp fun hab => Nat.lt_of_le_of_ne hab.1 hab.2
  have heq :
      List.insertionSort (fun a b : Nat × String => a.1 ≤ b.1) b1 =
      List.insertionSort (fun a b : Nat × String => a.1 ≤ b.1) b2 :=
    List.eq_of_perm_of_sorted (hp1.trans (hp.trans hp2.symm))
      (hstrict _ hs1 hn1s) (hstrict _ hs2 hn2s)
  unfold reassemble
  rw [heq]

/-- C5: in chunked mode the final transcript is the chunk texts joined
strictly in ascending chunk-index order, each separated from the next by a
blank line, trimmed, and committed to the output path in a single write;
the code's result coincides with index-ordered reassembly of the indexed
chunk-transcript buffer, and reassembly gives the same result for any
completion order (any permutation) of that buffer. -/
theorem reassembly_ordered_single_write (env : TEnv) (hex : env.fileExists = true)
    (hsz : MAX_SIZE < env.fileSize) (n : Nat) (hseg : env.segResult = some n)
    (hok : ∀ i, i < n → env.adapterOk (Target.chunk i) = true) :
    outputWrites (transcribe_file env).2 =
      [rustTrim (sepJoin ((List.range n).map fun i =>
        env.adapterText (Target.chunk i)))] ∧
    reassemble ((List.range n).map fun i => (i, env.adapterText (Target.chunk i))) =
      rustTrim (sepJoin ((List.range n).map fun i =>
        env.adapterText (Target.chunk i))) ∧
    (∀ buf1 buf2 : List (Nat × String), buf1.Perm buf2 →
      (buf1.map Prod.fst).Nodup → reassemble buf1 = reassemble buf2) := by
  refine ⟨?_, ?_, reassemble_perm_invariant⟩
  · rw [transcribe_file_all_ok_trace env hex hsz n hseg hok]
    have h1 := outputWrites_chunkEvents (List.range n)
    simp only [outputWrites] at h1 ⊢
    simp [List.filterMap_cons, List.filterMap_append, h1, rustTrim_joinTrailing]
  · unfold reassemble
    rw [insertionSort_indexed_buffer n (fun i => env.adapterText (Target.chunk i))]
    rw [List.map_map]
    have hcomp :
        (Prod.snd ∘ fun i => (i, env.adapterText (Target.chunk i))) =
          fun i => env.adapterText (Target.chunk i) := rfl
    rw [hcomp, rustTrim_joinTrailing]

/-- A large-file environment with 3 chunks that all transcribe. -/
def envOk3 : TEnv :=
  { fileExists := true, fileSize := 26 * 1024 * 1024, segResult := some 3,
    segError := "", adapterOk := fun _ => true,
    adapterText := fun t =>
      match t with
      | Target.chunk 0 => "alpha"
      | Target.chunk 1 => "beta"
      | _ => "gamma",
    adapterStderr := fun _ => "" }

/-- Witness for C5 at a concrete 3-chunk run. -/
theorem reassembly_ordered_single_write_witness :
    outputWrites (transcribe_file envOk3).2 =
      [rustTrim (sepJoin ((List.range 3).map fun i =>
        envOk3.adapterText (Target.chunk i)))] :=
  (reassembly_ordered_single_write envOk3 rfl (by decide) 3 rfl
    (fun _ _ => rfl)).1

/-! ## C4: the segmentation plan -/

/-- C4: for duration `d` and target chunk length `t`, `split_audio_file`
plans exactly `ceil(d / t)` chunks with contiguous indices `0, 1, ...`;
chunk `i` starts at offset `i * t`; every chunk except the last carries an
explicit duration of exactly `t` seconds, and the last chunk carries no
explicit duration bound. -/
theorem split_audio_file_plan (d : ℚ) (t : Nat) (ht : 0 < t) (hd : 0 ≤ d) :
    ((split_audio_file d t).length : Int) = ⌈d / (t : ℚ)⌉ ∧
    (split_audio_file d t).map ChunkCmd.index = List.range (splitChunkCount d t) ∧
    (∀ c ∈ split_audio_file d t, c.start = (c.index : ℚ) * (t : ℚ)) ∧
    (∀ c ∈ split_audio_file d t, c.index + 1 < splitChunkCount d t →
      c.explicitDur = some t) ∧
    (∀ c ∈ split_audio_file d t, c.index + 1 = splitChunkCount d t →
      c.explicitDur = none) := by
  have hnn : (0 : ℚ) ≤ d / (t : ℚ) := div_nonneg hd (by positivity)
  have hceil : (0 : Int) ≤ ⌈d / (t : ℚ)⌉ := Int.ceil_nonneg hnn
  refine ⟨?_, ?_, ?_, ?_, ?_⟩
  · simp [split_audio_file, splitChunkCount, Int.toNat_of_nonneg hceil]
  · simp only [split_audio_file, List.map_map]
    have hcomp :
        (ChunkCmd.index ∘ fun i : Nat =>
          ({ index := i, start := (i : ℚ) * (t : ℚ),
             explicitDur := if i < splitChunkCount d t - 1 then some t
               else none } : ChunkCmd)) = fun i : Nat => i := rfl
    rw [hcomp]
    exact List.map_id _
  · intro c hc
    simp only [split_audio_file, List.mem_map] at hc
    obtain ⟨i, _, rfl⟩ := hc
    rfl
  · intro c hc hlt
    simp only [split_audio_file, List.mem_map] at hc
    obtain ⟨i, _, rfl⟩ := hc
    simp only at hlt ⊢
    rw [if_pos (by omega)]
  · intro c hc hlast
    simp only [split_audio_file, List.mem_map] at hc
    obtain ⟨i, _, rfl⟩ := hc
    simp only at hlast ⊢
    rw [if_neg (by omega)]

/-- Witness for C4 at a 2500-second recording split into 1000-second
chunks: 3 chunks are planned. -/
theorem split_audio_file_plan_witness :
    ((split_audio_file 2500 1000).length : Int) = ⌈(2500 : ℚ) / ((1000 : Nat) : ℚ)⌉ :=
  (split_audio_file_plan 2500 1000 (by norm_num) (by norm_num)).1

/-! ## C6: newest-first ordering and the limit -/

/-- C6 counterexample: the claim says episodes lacking a timestamp sort
last (treated as the *minimum* timestamp), so with episodes
`[pre-epoch (t = -5), undated]` and `limit = 1` the pre-epoch episode would
be processed.  The code instead treats a missing timestamp as
`DateTime::default()` — the Unix epoch — so the undated episode sorts
*before* the pre-epoch one and is the one processed. -/
theorem batch_limit_pre_epoch_counterexample :
    processOrder (some 1) [⟨"pre-epoch", some (-5)⟩, ⟨"undated", none⟩] =
      [⟨"undated", none⟩] ∧
    ([⟨"undated", none⟩] : List Episode) ≠ [⟨"pre-epoch", some (-5)⟩] := by
  constructor
  · decide
  · decide

/-- C6 amended: episodes are sorted by publication timestamp descending
with a missing timestamp treated as the Unix epoch (so an undated episode
sorts before pre-1970 episodes, not last), and with a limit `l` the list is
truncated to the first `l` items: the processed list has length
`min l (count)`, is a sub-multiset of the input, is sorted newest-first
under the epoch-default key, and every processed item's key is at least
every unprocessed item's key. -/
theorem batch_limit_amended (eps : List Episode) (l : Nat) :
    (processOrder (some l) eps).length = min l eps.length ∧
    List.Sorted newestFirst (processOrder (some l) eps) ∧
    (processOrder (some l) eps).Subperm eps ∧
    (∀ x ∈ processOrder (some l) eps, ∀ y ∈ eps,
      y ∉ processOrder (some l) eps → sortKey y ≤ sortKey x) := by
  haveI : IsTotal Episode newestFirst := ⟨fun a b => Int.le_total _ _⟩
  haveI : IsTrans Episode newestFirst := ⟨fun a b c h1 h2 => le_trans h2 h1⟩
  have hsort : List.Sorted newestFirst (List.insertionSort newestFirst eps) :=
    List.sorted_insertionSort newestFirst eps
  have hperm : (List.insertionSort newestFirst eps).Perm eps :=
    List.perm_insertionSort newestFirst eps
  have hlen : (List.insertionSort newestFirst eps).length = eps.length :=
    hperm.length_eq
  have hpo : processOrder (some l) eps =
      (List.insertionSort newestFirst eps).take l := by
    show (if (List.insertionSort newestFirst eps).length > l
      then (List.insertionSort newestFirst eps).take l
      else List.insertionSort newestFirst eps) = _
    by_cases hc : (List.insertionSort newestFirst eps).length > l
    · rw [if_pos hc]
    · rw [if_neg hc, List.take_of_length_le (by omega)]
  rw [hpo]
  refine ⟨?_, ?_, ?_, ?_⟩
  · rw [List.length_take, hlen]
  · exact List.Pairwise.sublist (List.take_sublist l _) hsort
  · exact (List.take_sublist l _).subperm.trans hperm.subperm
  · intro x hx y hy hyn
    have hys : y ∈ List.insertionSort newestFirst eps := hperm.mem_iff.mpr hy
    have hsplit := List.take_append_drop l (List.insertionSort newestFirst eps)
    have hyd : y ∈ (List.insertionSort newestFirst eps).drop l := by
      have := hys
      rw [← hsplit] at this
      rcases List.mem_append.mp this with h | h
      · exact absurd h hyn
      · exact h
    have hcross := (List.pairwise_append.mp (by rw [hsplit]; exact hsort)).2.2
    exact hcross x hx y hyd

/-- Witness for the amended C6 at the spec's example shape: 4 dated
episodes, limit 3. -/
theorem batch_limit_amended_witness :
    (processOrder (some 3)
      [⟨"e1", some 40⟩, ⟨"e2", some 30⟩, ⟨"e3", some 20⟩, ⟨"e4", some 10⟩]).length =
      min 3 4 :=
  (batch_limit_amended
    [⟨"e1", some 40⟩, ⟨"e2", some 30⟩, ⟨"e3", some 20⟩, ⟨"e4", some 10⟩] 3).1

/-! ## C7: per-item failure isolation -/

/-- The episode loop from any start index: as long as the `?`-propagated
filesystem steps succeed, the loop records one outcome per episode and
never aborts, whatever the download and transcription outcomes are. -/
theorem episodeLoop_all_ok (benv : BatchEnv) (eps : List Episode) :
    ∀ start, (∀ i, i < eps.length → benv.createDirOk (start + i) = true) →
    episodeLoop benv start eps =
      Except.ok ((List.range eps.length).map fun i =>
        (start + i, outcomeAt benv (start + i))) := by
  induction eps with
  | nil => intro start _; rfl
  | cons e rest ih =>
    intro start h
    have h0 : benv.createDirOk start = true := by
      have := h 0 (by simp)
      simpa using this
    have hrest : ∀ i, i < rest.length → benv.createDirOk (start + 1 + i) = true := by
      intro i hi
      have := h (i + 1) (by simpa using Nat.succ_lt_succ hi)
      rw [show start + 1 + i = start + (i + 1) by omega]
      exact this
    simp only [episodeLoop, h0, Bool.true_eq_false, if_false]
    rw [ih (start + 1) hrest]
    rw [List.length_cons, List.range_succ_eq_map, List.map_cons, List.map_map]
    simp only [Nat.add_zero]
    congr 1
    congr 1
    apply List.map_congr_left
    intro i _
    show (start + 1 + i, outcomeAt benv (start + 1 + i)) = _
    rw [show start + 1 + i = start + Nat.succ i by omega]
    rfl

/-- C7: a failure in downloading one item's audio or in transcribing it
never aborts the batch: provided the `?`-propagated directory/tempdir steps
succeed, the loop returns one recorded outcome per episode, each item's
outcome depending only on its own download/transcription results, so all
other items are still processed. -/
theorem batch_isolation (benv : BatchEnv) (eps : List Episode)
    (h : ∀ i, i < eps.length → benv.createDirOk i = true) :
    episodeLoop benv 0 eps =
      Except.ok ((List.range eps.length).map fun i => (i, outcomeAt benv i)) := by
  have hmain := episodeLoop_all_ok benv eps 0 (by simpa using h)
  simpa using hmain

/-- A batch environment where only item 1's download fails. -/
def benvFail1 : BatchEnv :=
  { createDirOk := fun _ => true,
    downloadOk := fun i => decide (i ≠ 1),
    transcribeOk := fun _ => true }

/-- Witness for C7: with item 1 of 3 failing its download, all three items
are still processed and recorded. -/
theorem batch_isolation_witness :
    episodeLoop benvFail1 0 [⟨"a", some 3⟩, ⟨"b", some 2⟩, ⟨"c", some 1⟩] =
      Except.ok ((List.range 3).map fun i => (i, outcomeAt benvFail1 i)) :=
  batch_isolation benvFail1 [⟨"a", some 3⟩, ⟨"b", some 2⟩, ⟨"c", some 1⟩]
    (fun _ _ => rfl)

/-! ## C8 and C9: `sanitize_filename` -/

/-- CDATA-open removal only deletes characters. -/
theorem removeCDOpen_subset (l : List Char) : ∀ c ∈ removeCDOpen l, c ∈ l := by
  induction l using removeCDOpen.induct with
  | case1 rest ih =>
    intro c hc
    rw [removeCDOpen] at hc
    have := ih c hc
    simp [this]
  | case2 c rest hne ih =>
    intro d hd
    rw [removeCDOpen.eq_def] at hd
    split at hd
    · rename_i rest2 heq
      cases heq
      exact (hne rest2 rfl rfl).elim
    · rename_i c2 rest2 _ heq
      cases heq
      rcases List.mem_cons.mp hd with rfl | hd2
      · exact List.mem_cons_self _ _
      · exact List.mem_cons_of_mem _ (ih _ hd2)
    · rename_i heq
      cases heq
  | case3 =>
    intro c hc
    simp [removeCDOpen] at hc

/-- CDATA-close removal only deletes characters. -/
theorem removeCDClose_subset (l : List Char) : ∀ c ∈ removeCDClose l, c ∈ l := by
  induction l using removeCDClose.induct with
  | case1 rest ih =>
    intro c hc
    rw [removeCDClose] at hc
    have := ih c hc
    simp [this]
  | case2 c rest hne ih =>
    intro d hd
    rw [removeCDClose.eq_def] at hd
    split at hd
    · rename_i rest2 heq
      cases heq
      exact (hne rest2 rfl rfl).elim
    · rename_i c2 rest2 _ heq
      cases heq
      rcases List.mem_cons.mp hd with rfl | hd2
      · exact List.mem_cons_self _ _
      · exact List.mem_cons_of_mem _ (ih _ hd2)
    · rename_i heq
      cases heq
  | case3 =>
    intro c hc
    simp [removeCDClose] at hc

/-- Without any `<` there is no opening CDATA marker: removal is identity. -/
theorem removeCDOpen_id (l : List Char) (h : '<' ∉ l) : removeCDOpen l = l := by
  induction l using removeCDOpen.induct with
  | case1 rest ih =>
    exact absurd (List.mem_cons_self _ _) h
  | case2 c rest hne ih =>
    have hrest : '<' ∉ rest := fun hm => h (List.mem_cons_of_mem _ hm)
    rw [removeCDOpen.eq_def]
    split
    · rename_i rest2 heq
      cases heq
      exact (hne rest2 rfl rfl).elim
    · rename_i c2 rest2 _ heq
      cases heq
      rw [ih hrest]
    · rename_i heq
      cases heq
  | case3 => rfl

/-- Without any `]` there is no closing CDATA marker: removal is identity. -/
theorem removeCDClose_id (l : List Char) (h : ']' ∉ l) : removeCDClose l = l := by
  induction l using removeCDClose.induct with
  | case1 rest ih =>
    exact absurd (List.mem_cons_self _ _) h
  | case2 c rest hne ih =>
    have hrest : ']' ∉ rest := fun hm => h (List.mem_cons_of_mem _ hm)
    rw [removeCDClose.eq_def]
    split
    · rename_i rest2 heq
      cases heq
      exact (hne rest2 rfl rfl).elim
    · rename_i c2 rest2 _ heq
      cases heq
      rw [ih hrest]
    · rename_i heq
      cases heq
  | case3 => rfl

/-- Stripping trailing underscores only deletes characters. -/
theorem strip_subset (l : List Char) :
    ∀ c ∈ stripTrailingUnderscores l, c ∈ l := by
  intro c hc
  unfold stripTrailingUnderscores at hc
  rw [List.mem_reverse] at hc
  have := (List.dropWhile_sublist (fun c => c = '_')).subset hc
  exact List.mem_reverse.mp this

/-- Stripping trailing underscores is a sublist. -/
theorem strip_sublist (l : List Char) :
    (stripTrailingUnderscores l).Sublist l := by
  unfold stripTrailingUnderscores
  have h : (l.reverse.dropWhile (fun c => c = '_')).Sublist l.reverse :=
    List.dropWhile_sublist _
  have h2 := List.reverse_sublist.mpr h
  rw [List.reverse_reverse] at h2
  exact h2

/-- A list with no underscore at all is unchanged by the trailing strip. -/
theorem strip_id (l : List Char) (h : '_' ∉ l) :
    stripTrailingUnderscores l = l := by
  unfold stripTrailingUnderscores
  have hdw : l.reverse.dropWhile (fun c => c = '_') = l.reverse := by
    cases hr : l.reverse with
    | nil => rfl
    | cons c rest =>
      have hc : c ∈ l := List.mem_reverse.mp (by rw [hr]; exact List.mem_cons_self _ _)
      have hcne : (c = '_') = False := by
        simp only [eq_iff_iff, iff_false]
        intro hcc
        exact h (hcc ▸ hc)
      simp [List.dropWhile, hcne]
  rw [hdw, List.reverse_reverse]

/-- Every character of a sanitized name is either an underscore (produced
from a space) or a retained character: ASCII alphanumeric or non-space
whitespace. -/
theorem sanitize_chars (x : String) :
    ∀ c ∈ (sanitize_filename x).data,
      c = '_' ∨ (keepChar c = true ∧ c ≠ ' ') := by
  intro c hc
  have hc2 : c ∈ ((cdataStrip x.data).filter keepChar).map spaceToUnderscore :=
    strip_subset _ c hc
  obtain ⟨d, hd, rfl⟩ := List.mem_map.mp hc2
  have hkeep : keepChar d = true := List.of_mem_filter hd
  by_cases hsp : d = ' '
  · subst hsp
    left
    rfl
  · right
    unfold spaceToUnderscore
    rw [if_neg hsp]
    exact ⟨hkeep, hsp⟩

/-- On an input with no space character, every character of the sanitized
name is retained (alphanumeric or non-space whitespace) — no underscore is
ever produced. -/
theorem sanitize_chars_no_space (x : String) (h : ' ' ∉ x.data) :
    ∀ c ∈ (sanitize_filename x).data, keepChar c = true ∧ c ≠ ' ' := by
  intro c hc
  have hc2 : c ∈ ((cdataStrip x.data).filter keepChar).map spaceToUnderscore :=
    strip_subset _ c hc
  obtain ⟨d, hd, rfl⟩ := List.mem_map.mp hc2
  have hkeep : keepChar d = true := List.of_mem_filter hd
  have hdm : d ∈ cdataStrip x.data := List.mem_of_mem_filter hd
  have hdx : d ∈ x.data :=
    removeCDOpen_subset x.data d (removeCDClose_subset (removeCDOpen x.data) d hdm)
  have hsp : d ≠ ' ' := fun hdd => h (hdd ▸ hdx)
  unfold spaceToUnderscore
  rw [if_neg hsp]
  exact ⟨hkeep, hsp⟩

/-- C8 counterexample: `sanitize_filename` is not idempotent.
`sanitize_filename "a b" = "a_b"`, but a second application drops the
underscore (the regex class `[^a-zA-Z0-9\s]` matches `_`), giving `"ab"`. -/
theorem sanitize_not_idempotent :
    sanitize_filename (sanitize_filename "a b") ≠ sanitize_filename "a b" := by
  decide

/-- C8 amended: `sanitize_filename` is idempotent on every input containing
no space character (the first application then produces no underscore, and
all of its output characters are retained unchanged by a second
application). -/
theorem sanitize_idempotent_on_spaceless (x : String) (h : ' ' ∉ x.data) :
    sanitize_filename (sanitize_filename x) = sanitize_filename x := by
  have hchar := sanitize_chars_no_space x h
  have hlt : '<' ∉ (sanitize_filename x).data := fun hm => by
    have := (hchar _ hm).1
    exact absurd this (by decide)
  have hrb : ']' ∉ (sanitize_filename x).data := fun hm => by
    have := (hchar _ hm).1
    exact absurd this (by decide)
  have hus : '_' ∉ (sanitize_filename x).data := fun hm => by
    have := (hchar _ hm).1
    exact absurd this (by decide)
  apply String.ext
  show stripTrailingUnderscores
    (((cdataStrip (sanitize_filename x).data).filter keepChar).map
      spaceToUnderscore) = (sanitize_filename x).data
  unfold cdataStrip
  rw [removeCDOpen_id _ hlt, removeCDClose_id _ hrb]
  rw [List.filter_eq_self.mpr (fun c hc => (hchar c hc).1)]
  have hmap : ∀ c ∈ (sanitize_filename x).data, spaceToUnderscore c = c := by
    intro c hc
    unfold spaceToUnderscore
    exact if_neg (hchar c hc).2
  rw [List.map_congr_left hmap, List.map_id']
  exact strip_id _ hus

/-- Witness for the amended C8 at a concrete spaceless title. -/
theorem sanitize_idempotent_on_spaceless_witness :
    sanitize_filename (sanitize_filename "No.Spaces-Here!") =
      sanitize_filename "No.Spaces-Here!" :=
  sanitize_idempotent_on_spaceless "No.Spaces-Here!" (by decide)

/-- Mapping the space-to-underscore replacement over a list with no
pre-existing underscore produces exactly one underscore per space. -/
theorem count_underscore_map (l : List Char) (hl : '_' ∉ l) :
    (l.map spaceToUnderscore).count '_' = l.count ' ' := by
  induction l with
  | nil => rfl
  | cons c rest ih =>
    have hrest : '_' ∉ rest := fun hm => hl (List.mem_cons_of_mem _ hm)
    have ih2 := ih hrest
    by_cases hc : c = ' '
    · subst hc
      simp [spaceToUnderscore, List.count_cons, ih2]
    · have hcu : c ≠ '_' := fun he => hl (he ▸ List.mem_cons_self _ _)
      simp [spaceToUnderscore, if_neg hc, List.count_cons, ih2, hc, hcu]

/-- C9 counterexample: the claim says every whitespace run becomes exactly
one underscore, tabs and newlines included.  The code converts only the
space character, one underscore per space: a two-space run becomes two
underscores, and a tab is left unchanged. -/
theorem whitespace_run_counterexample :
    sanitize_filename "a  b" = "a__b" ∧
    ("a__b" : String) ≠ "a_b" ∧
    sanitize_filename "a\tb" = "a\tb" ∧
    ("a\tb" : String) ≠ "a_b" :=
  ⟨by decide, by decide, by decide, by decide⟩

/-- C9 amended: after the CDATA markers are removed and everything but
ASCII alphanumerics and whitespace is dropped, each *space* character is
converted into exactly one underscore (a run of k spaces yields k
underscores) while other whitespace is retained unchanged; consequently
every output character is an underscore or a retained non-space character,
underscores in the output never outnumber the spaces of the retained
input, two spaces give two underscores, a tab survives, and the spec's own
example still sanitizes as documented. -/
theorem sanitize_space_conversion (x : String) :
    (∀ c ∈ (sanitize_filename x).data, c = '_' ∨ (keepChar c = true ∧ c ≠ ' ')) ∧
    (sanitize_filename x).data.count '_' ≤ (cdataStrip x.data).count ' ' ∧
    sanitize_filename "a  b" = "a__b" ∧
    sanitize_filename "a\tb" = "a\tb" ∧
    sanitize_filename "Episode #1: A/B <![CDATA[Test]]>" = "Episode_1_AB_Test" := by
  refine ⟨sanitize_chars x, ?_, by decide, by decide, by decide⟩
  have h1 : (sanitize_filename x).data.count '_' ≤
      (((cdataStrip x.data).filter keepChar).map spaceToUnderscore).count '_' :=
    (strip_sublist _).count_le '_'
  have hus : '_' ∉ (cdataStrip x.data).filter keepChar := by
    intro hm
    have := List.of_mem_filter hm
    exact absurd this (by decide)
  have h2 := count_underscore_map ((cdataStrip x.data).filter keepChar) hus
  have h3 : ((cdataStrip x.data).filter keepChar).count ' ' ≤
      (cdataStrip x.data).count ' ' :=
    (List.filter_sublist _).count_le ' '
  omega

/-- Witness for the amended C9 at a concrete two-word title. -/
theorem sanitize_space_conversion_witness :
    (sanitize_filename "a b").data.count '_' ≤ (cdataStrip "a b".data).count ' ' :=
  (sanitize_space_conversion "a b").2.1
